import Mathlib

/-!
Shallow embedding of the SHL Assessment Recommendation System's core
algorithms, for checking the natural-language specification against the code.

Embedded components:
* `LLMHandler.rerank` (src/src/engine/llm_handler.py, lines 37-121): the
  reranker's post-processing of a parsed LLM response, with the candidate
  assessments abstracted to an arbitrary type `α` and the outcome of the
  LLM request/parse step abstracted to `LLMOutcome` (the network call and
  JSON parsing are external; every possible parsed value is covered by
  quantifying over `LLMOutcome`).
* `extract_assessment_name` (src/evaluations/calculate_metrics.py,
  lines 19-57): URL-to-slug normalization, modelled on `List Char`.
* `calculate_metrics` (src/evaluations/calculate_metrics.py, lines 60-165):
  the per-record skip/score loop and the final recall report.
-/

namespace SHL

/-- One element of the JSON array parsed from the LLM's response text.
Python's `json.loads` can yield ints and non-int values inside a list;
`rerank` filters with `isinstance(idx, int)` (Python bools are ints and
decode to 0/1, which `JItem.int` also covers). -/
inductive JItem where
  | int (i : Int)
  | nonInt
deriving DecidableEq, Repr

/-- Abstraction of `self.model.generate_content(prompt)` followed by the
JSON-array extraction in `rerank`:
* `failure`: the request raised, or neither the regex nor the fallback
  cleaning produced text that `json.loads` accepts as a JSON array
  (iterating a non-list or non-iterable also ends in this caught-exception
  or empty-selection path);
* `parsed ix`: a JSON array was obtained, with elements `ix`. -/
inductive LLMOutcome where
  | failure
  | parsed (ix : List JItem)
deriving DecidableEq, Repr

/-- The index-validation filter of `rerank` (line 99 of llm_handler.py):
`isinstance(idx, int) and 0 <= idx < len(results)`.  Returns the valid
indices, as naturals, in response order, duplicates included. -/
def selectedValid (n : Nat) (ix : List JItem) : List Nat :=
  ix.filterMap (fun it =>
    match it with
    | JItem.int i => if 0 ≤ i ∧ i < (n : Int) then some i.toNat else none
    | JItem.nonInt => none)

/-- The top-up loop of `rerank` (lines 110-114 of llm_handler.py):

    for idx, res in enumerate(results):
        if idx not in already_added:
            final_results.append(res)
        if len(final_results) >= 10:
            break

`i` is the value of `idx` for the head of `l` (the not-yet-enumerated
suffix of `results`), `acc` is `final_results`.  Note the `>= 10` check
runs after every iteration, appending or not. -/
def topUpAux {α : Type} (already : List Nat) : Nat → List α → List α → List α
  | _, [], acc => acc
  | i, res :: rest, acc =>
    let acc' := if i ∈ already then acc else acc ++ [res]
    if 10 ≤ acc'.length then acc' else topUpAux already (i + 1) rest acc'

/-- `LLMHandler.rerank(query, results)` (lines 37-121 of llm_handler.py).

`cfg` stands for `self.model` being non-`None`; the query only feeds the
prompt, so it does not appear.  The hard-coded result cap is 10
(`results[:10]`, the `>= 10` break).  All fallback paths — unconfigured
model, empty `results`, request/parse failure, and zero valid indices —
return `results[:10]`; Python list slicing never raises, and the whole
LLM path is wrapped in `try/except` returning `results[:10]`. -/
def rerank {α : Type} (cfg : Bool) (results : List α) (outcome : LLMOutcome) :
    List α :=
  if !cfg || results.isEmpty then results.take 10
  else
    match outcome with
    | LLMOutcome.failure => results.take 10
    | LLMOutcome.parsed ix =>
      let valids := selectedValid results.length ix
      let final := valids.filterMap (fun k => results.get? k)
      if final.isEmpty then results.take 10
      else if final.length < 5 then topUpAux valids 0 results final
      else final

/-- Number of valid (integer, in-range) index occurrences in an outcome. -/
def vCount (n : Nat) : LLMOutcome → Nat
  | LLMOutcome.failure => 0
  | LLMOutcome.parsed ix => (selectedValid n ix).length

/-- Number of positions of `l` (whose first position is numbered `i`) whose
index is not in `already`: how many candidates the top-up loop may append. -/
def numAvail (already : List Nat) : Nat → List α → Nat
  | _, [] => 0
  | i, _ :: rest => (if i ∈ already then 0 else 1) + numAvail already (i + 1) rest

/-! ### Name normalizer: `extract_assessment_name` (calculate_metrics.py 19-57)

The Python code works on `str`; the embedding works on `List Char` with a
`String` wrapper.  Python's ASCII range is modelled exactly; the embedding
of `str.lower()` and `str.strip()` covers the ASCII characters (the later
`re.sub(r'[^a-z0-9\-]', '', ...)` deletes every non-ASCII character, so
the claims about outputs are unaffected). -/

/-- `str.lower()` on one character (ASCII case mapping). -/
def pyLower (c : Char) : Char :=
  if 'A' ≤ c ∧ c ≤ 'Z' then Char.ofNat (c.toNat + 32) else c

/-- The character class kept by `re.sub(r'[^a-z0-9\-]', '', name)`. -/
def keepChar (c : Char) : Bool :=
  (decide ('a' ≤ c) && decide (c ≤ 'z')) ||
    (decide ('0' ≤ c) && decide (c ≤ '9')) || (c == '-')

/-- Value of a hexadecimal digit, as accepted by percent-decoding. -/
def hexVal (c : Char) : Option Nat :=
  if '0' ≤ c ∧ c ≤ '9' then some (c.toNat - '0'.toNat)
  else if 'a' ≤ c ∧ c ≤ 'f' then some (c.toNat - 'a'.toNat + 10)
  else if 'A' ≤ c ∧ c ≤ 'F' then some (c.toNat - 'A'.toNat + 10)
  else none

/-- `urllib.parse.unquote`: replace each `%XY` hex escape by the character
with code `16*X + Y`, leave malformed escapes as literal text (single-byte
escapes; multi-byte UTF-8 sequences are irrelevant here, every decoded
byte outside `[a-z0-9-]` is deleted later).  The `fuel` argument makes the
recursion structural; each step consumes at least one character, so
`fuel = l.length` (as used by `unquoteChars`) never runs out. -/
def unquoteFuel : Nat → List Char → List Char
  | 0, l => l
  | _ + 1, [] => []
  | fuel + 1, c :: rest =>
    if c = '%' then
      match rest with
      | a :: b :: rest' =>
        match hexVal a, hexVal b with
        | some x, some y => Char.ofNat (16 * x + y) :: unquoteFuel fuel rest'
        | _, _ => '%' :: unquoteFuel fuel rest
      | _ => '%' :: unquoteFuel fuel rest
    else c :: unquoteFuel fuel rest

/-- `urllib.parse.unquote` on a character list. -/
def unquoteChars (l : List Char) : List Char :=
  unquoteFuel l.length l

/-- Python `s.split(sep)` on characters: `splitChar sep "a/b" = ["a","b"]`,
`splitChar sep "" = [""]`, `splitChar sep "/a" = ["", "a"]`. -/
def splitChar (sep : Char) : List Char → List (List Char)
  | [] => [[]]
  | c :: rest =>
    match splitChar sep rest with
    | [] => [[c]]
    | h :: t => if c = sep then [] :: h :: t else (c :: h) :: t

/-- `re.sub(r'\-+', '-', name)`: collapse each run of hyphens to one. -/
def collapseHyphens : List Char → List Char
  | [] => []
  | [c] => [c]
  | a :: b :: rest =>
    if a = '-' ∧ b = '-' then collapseHyphens (b :: rest)
    else a :: collapseHyphens (b :: rest)

/-- Python `strip`-family: drop the characters satisfying `p` from both
ends (left strip, then right strip — the two commute). -/
def stripWhile (p : Char → Bool) (l : List Char) : List Char :=
  ((l.dropWhile p).reverse.dropWhile p).reverse

/-- Lines 37-43 of calculate_metrics.py, after the initial strip:
`s.split('?', 1)[0].split('#', 1)[0]`, `unquote`, `rstrip('/')`,
`lstrip('/')`. -/
def cleanPath (s : List Char) : List Char :=
  ((unquoteChars ((s.takeWhile (fun c => !(c == '?'))).takeWhile
    (fun c => !(c == '#')))).reverse.dropWhile
      (fun c => c == '/')).reverse.dropWhile (fun c => c == '/')

/-- Line 49: `name = parts[-1].lower() if parts else ""` (the `.lower()` is
applied separately by `slugify`). -/
def nameFromParts (parts : List (List Char)) : List Char :=
  match parts.getLast? with
  | some nm => nm
  | none => []

/-- Lines 49-55: lower-case, keep `[a-z0-9-]`, collapse hyphen runs, strip
hyphens from both ends. -/
def slugify (name0 : List Char) : List Char :=
  stripWhile (fun c => c == '-') (collapseHyphens ((name0.map pyLower).filter keepChar))

/-- `extract_assessment_name(url)` (calculate_metrics.py lines 19-57) on a
character list.  The `isinstance(url, str)` guard is outside the model
(inputs are strings by type). -/
def extractName (url : List Char) : List Char :=
  if (stripWhile Char.isWhitespace url).isEmpty then []
  else if (cleanPath (stripWhile Char.isWhitespace url)).isEmpty then []
  else
    slugify (nameFromParts ((splitChar '/'
      (cleanPath (stripWhile Char.isWhitespace url))).filter (fun p => !p.isEmpty)))

/-- String-level wrapper of `extract_assessment_name`. -/
def extract_assessment_name (url : String) : String :=
  ⟨extractName url.data⟩

/-! ### Evaluation harness: `calculate_metrics` (calculate_metrics.py 60-165) -/

/-- The relaxed per-candidate match (calculate_metrics.py lines 134-138):

    res_name and (res_name == target_name or
                  res_name.endswith(target_name) or
                  target_name.endswith(res_name) or
                  target_name in res_name or
                  res_name in target_name)

`x.endswith(y)` is "`y` is a suffix of `x`"; `y in x` is "`y` is a
substring of `x`". -/
def matchNames (target_name res_name : String) : Prop :=
  res_name ≠ "" ∧
    (res_name = target_name ∨
      target_name.data <:+ res_name.data ∨
      res_name.data <:+ target_name.data ∨
      target_name.data <:+: res_name.data ∨
      res_name.data <:+: target_name.data)

instance (t r : String) : Decidable (matchNames t r) :=
  inferInstanceAs (Decidable (_ ∧ _))

/-- One recommendation entry as the harness reads it: only its `url` field
is consumed (`res.get('url', '')`). -/
structure Recommendation where
  url : String
deriving DecidableEq, Repr

/-- The body of one `/recommend` response: either `response.json()` raises,
or it yields data whose `recommended_assessments` key (default `[]`) gives
the list of recommendations. -/
inductive JsonBody where
  | invalid
  | valid (recommended_assessments : List Recommendation)
deriving DecidableEq, Repr

/-- Outcome of `requests.post(API_URL, ...)` for one record. -/
inductive HTTPResult where
  | requestError
  | response (status : Nat) (body : JsonBody)
deriving DecidableEq, Repr

/-- One row of the ground-truth CSV (`Query`, `Assessment_url`) together
with the outcome of the live API call the harness makes for it (the
network is external, so the row carries the outcome abstractly and the
theorems quantify over it). -/
structure EvalRow where
  query : String
  assessment_url : String
  api : HTTPResult
deriving DecidableEq, Repr

/-- `target_name = extract_assessment_name(target_url)` (line 91). -/
def targetOf (row : EvalRow) : String :=
  extract_assessment_name row.assessment_url

/-- The inner candidate loop (lines 125-140): some returned candidate's
normalized slug matches the target. -/
def foundTarget (target_name : String) (recs : List Recommendation) : Bool :=
  recs.any (fun r => decide (matchNames target_name (extract_assessment_name r.url)))

/-- One iteration of the record loop (lines 88-158), updating
`(success_count, processed)`: skip on empty query/target, request error,
non-200 status, or invalid JSON; otherwise `processed += 1` and
`success_count += 1` exactly when a candidate matches. -/
def stepRow (acc : Nat × Nat) (row : EvalRow) : Nat × Nat :=
  if row.query = "" ∨ targetOf row = "" then acc
  else
    match row.api with
    | HTTPResult.requestError => acc
    | HTTPResult.response status body =>
      if status ≠ 200 then acc
      else
        match body with
        | JsonBody.invalid => acc
        | JsonBody.valid recs =>
          ((if foundTarget (targetOf row) recs then acc.1 + 1 else acc.1), acc.2 + 1)

/-- What `calculate_metrics` reports at the end (lines 160-165): the mean
recall with the processed count, or the explicit no-data message. -/
inductive Report where
  | recall (score : ℚ) (processed : Nat)
  | noData
deriving DecidableEq, Repr

/-- `calculate_metrics` on a loaded dataset: fold the record loop from
`(success_count, processed) = (0, 0)`, then report `hits / processed`
when `processed > 0` and the no-data message otherwise. -/
def calculate_metrics (rows : List EvalRow) : Report :=
  if 0 < (rows.foldl stepRow (0, 0)).2 then
    Report.recall
      (((rows.foldl stepRow (0, 0)).1 : ℚ) / ((rows.foldl stepRow (0, 0)).2 : ℚ))
      (rows.foldl stepRow (0, 0)).2
  else Report.noData

/-- Spec-side characterization: a row is scoreable when its query is
non-empty, its expected slug normalizes to a non-empty name, and the API
call returned HTTP 200 with parseable JSON. -/
def scoreable (row : EvalRow) : Bool :=
  (!(row.query == "")) && (!(targetOf row == "")) &&
    (match row.api with
     | HTTPResult.response status (JsonBody.valid _) => status == 200
     | _ => false)

/-- Spec-side characterization: a scoreable row whose returned candidates
contain a match for the expected slug. -/
def rowHit (row : EvalRow) : Bool :=
  scoreable row &&
    (match row.api with
     | HTTPResult.response _ (JsonBody.valid recs) => foundTarget (targetOf row) recs
     | _ => false)

/-- The hit rule of the code, over the normalized slugs of the returned
candidates. -/
def codeRelaxedHit (E : String) (slugs : List String) : Prop :=
  ∃ R ∈ slugs, matchNames E R

/-- The hit rule as the specification words it: a hit iff some returned
normalized slug `R` satisfies `R == E`, `R` ends-with `E`, `E` ends-with
`R`, `E` contains `R`, or `R` contains `E` (no non-emptiness condition on
`R`). -/
def specRelaxedHit (E : String) (slugs : List String) : Prop :=
  ∃ R ∈ slugs, R = E ∨ E.data <:+ R.data ∨ R.data <:+ E.data ∨
    R.data <:+: E.data ∨ E.data <:+: R.data

instance (E : String) (slugs : List String) : Decidable (codeRelaxedHit E slugs) :=
  inferInstanceAs (Decidable (∃ R ∈ slugs, matchNames E R))

instance (E : String) (slugs : List String) : Decidable (specRelaxedHit E slugs) :=
  inferInstanceAs (Decidable (∃ R ∈ slugs, R = E ∨ E.data <:+ R.data ∨
    R.data <:+ E.data ∨ R.data <:+: E.data ∨ E.data <:+: R.data))

theorem selectedValid_lt (n : Nat) (ix : List JItem) :
    ∀ j ∈ selectedValid n ix, j < n := by
  intro j hj
  simp only [selectedValid, List.mem_filterMap] at hj
  obtain ⟨it, _, hit⟩ := hj
  cases it with
  | int i =>
    by_cases h : 0 ≤ i ∧ i < (n : Int)
    · simp only [if_pos h, Option.some.injEq] at hit
      omega
    · simp [h] at hit
  | nonInt => simp at hit

theorem filterMap_get?_length (l : List α) :
    ∀ ixs : List Nat, (∀ j ∈ ixs, j < l.length) →
      (ixs.filterMap (fun k => l.get? k)).length = ixs.length := by
  intro ixs
  induction ixs with
  | nil => simp
  | cons a t ih =>
    intro h
    have ha : a < l.length := h a (List.mem_cons_self a t)
    have hg : l[a]? = some (l[a]) := List.getElem?_eq_getElem ha
    have ht := ih (fun j hj => h j (List.mem_cons_of_mem a hj))
    simp [List.filterMap_cons, hg, ht]
    intro j hj
    have hjl : j < l.length := h j (List.mem_cons_of_mem a hj)
    simp [List.getElem?_eq_getElem hjl]

theorem countP_shift_mem {already : List Nat} {i : Nat} (h : i ∈ already) :
    already.countP (fun j => decide (i + 1 ≤ j)) + 1 ≤
      already.countP (fun j => decide (i ≤ j)) := by
  induction already with
  | nil => simp at h
  | cons a t ih =>
    rw [List.countP_cons, List.countP_cons]
    have hmono : t.countP (fun j => decide (i + 1 ≤ j)) ≤
        t.countP (fun j => decide (i ≤ j)) :=
      List.countP_mono_left (fun b _ hb => by
        simp only [decide_eq_true_eq] at hb ⊢; omega)
    rcases List.mem_cons.mp h with rfl | ht
    · have h1 : (decide (i + 1 ≤ i)) = false := by simp
      have h2 : (decide (i ≤ i)) = true := by simp
      rw [h1, h2]
      simp only [Bool.false_eq_true, if_false, if_true]
      omega
    · have := ih ht
      by_cases hc : i + 1 ≤ a
      · have h2 : (decide (i + 1 ≤ a)) = true := decide_eq_true hc
        have h3 : (decide (i ≤ a)) = true := decide_eq_true (by omega)
        rw [h2, h3]
        simp only [if_true]
        omega
      · have h1 : (decide (i + 1 ≤ a)) = false := decide_eq_false hc
        rw [h1]
        simp only [Bool.false_eq_true, if_false]
        split <;> omega

theorem numAvail_ge (already : List Nat) :
    ∀ (l : List α) (i : Nat),
      l.length - already.countP (fun j => decide (i ≤ j)) ≤ numAvail already i l := by
  intro l
  induction l with
  | nil => intro i; simp [numAvail]
  | cons a t ih =>
    intro i
    have hmono : already.countP (fun j => decide (i + 1 ≤ j)) ≤
        already.countP (fun j => decide (i ≤ j)) :=
      List.countP_mono_left (fun b _ hb => by
        simp only [decide_eq_true_eq] at hb ⊢; omega)
    by_cases h : i ∈ already
    · have h1 := countP_shift_mem h
      have h2 := ih (i + 1)
      simp only [numAvail, h, if_pos, List.length_cons]
      omega
    · have h2 := ih (i + 1)
      simp only [numAvail, h, if_neg, List.length_cons, not_false_iff]
      omega

theorem numAvail_ge_sub (already : List Nat) (l : List α) (i : Nat) :
    l.length - already.length ≤ numAvail already i l := by
  have h1 := numAvail_ge already l i
  have h2 := List.countP_le_length (fun j => decide (i ≤ j)) (l := already)
  omega

theorem topUpAux_append (already : List Nat) :
    ∀ (l : List α) (i : Nat) (acc : List α),
      ∃ ext, topUpAux already i l acc = acc ++ ext := by
  intro l
  induction l with
  | nil => intro i acc; exact ⟨[], by simp [topUpAux]⟩
  | cons res rest ih =>
    intro i acc
    by_cases hmem : i ∈ already
    · simp only [topUpAux, hmem, if_pos]
      split
      · exact ⟨[], by simp⟩
      · exact ih (i + 1) acc
    · simp only [topUpAux, hmem, if_neg, not_false_iff]
      split
      · exact ⟨[res], rfl⟩
      · obtain ⟨ext, hext⟩ := ih (i + 1) (acc ++ [res])
        exact ⟨res :: ext, by rw [hext]; simp⟩

theorem topUpAux_length_le (already : List Nat) :
    ∀ (l : List α) (i : Nat) (acc : List α), acc.length < 10 →
      (topUpAux already i l acc).length ≤ 10 := by
  intro l
  induction l with
  | nil => intro i acc h; simp only [topUpAux]; omega
  | cons res rest ih =>
    intro i acc h
    by_cases hmem : i ∈ already
    · simp only [topUpAux, hmem, if_pos]
      split
      · omega
      · exact ih (i + 1) acc h
    · simp only [topUpAux, hmem, if_neg, not_false_iff]
      split
      · next hlen => simp only [List.length_append, List.length_singleton] at *; omega
      · next hlen =>
        apply ih (i + 1)
        simp only [List.length_append, List.length_singleton] at hlen ⊢
        omega

theorem topUpAux_length_eq (already : List Nat) :
    ∀ (l : List α) (i : Nat) (acc : List α),
      acc.length < 10 → 10 ≤ acc.length + numAvail already i l →
      (topUpAux already i l acc).length = 10 := by
  intro l
  induction l with
  | nil =>
    intro i acc h1 h2
    have h0 : numAvail already i ([] : List α) = 0 := rfl
    rw [h0] at h2
    omega
  | cons res rest ih =>
    intro i acc h1 h2
    by_cases hmem : i ∈ already
    · simp only [numAvail, hmem, if_pos] at h2
      simp only [topUpAux, hmem, if_pos]
      split
      · omega
      · exact ih (i + 1) acc h1 (by omega)
    · simp only [numAvail, hmem, if_neg, not_false_iff] at h2
      simp only [topUpAux, hmem, if_neg, not_false_iff]
      split
      · next hlen => simp only [List.length_append, List.length_singleton] at hlen ⊢; omega
      · next hlen =>
        apply ih (i + 1)
        · simp only [List.length_append, List.length_singleton] at hlen ⊢; omega
        · simp only [List.length_append, List.length_singleton]; omega

theorem topUpAux_length_ge (already : List Nat) :
    ∀ (l : List α) (i : Nat) (acc : List α),
      min 10 (acc.length + numAvail already i l) ≤ (topUpAux already i l acc).length := by
  intro l
  induction l with
  | nil =>
    intro i acc
    have h0 : numAvail already i ([] : List α) = 0 := rfl
    have h1 : topUpAux already i ([] : List α) acc = acc := rfl
    rw [h0, h1]
    omega
  | cons res rest ih =>
    intro i acc
    by_cases hmem : i ∈ already
    · simp only [topUpAux, numAvail, hmem, if_pos]
      split
      · next hlen => omega
      · exact le_trans (by omega) (ih (i + 1) acc)
    · simp only [topUpAux, numAvail, hmem, if_neg, not_false_iff]
      split
      · next hlen => simp only [List.length_append, List.length_singleton] at hlen ⊢; omega
      · next hlen =>
        refine le_trans ?_ (ih (i + 1) (acc ++ [res]))
        simp only [List.length_append, List.length_singleton]
        omega

theorem topUpAux_mem (already : List Nat) :
    ∀ (l : List α) (i : Nat) (acc : List α) (x : α),
      x ∈ topUpAux already i l acc → x ∈ acc ∨ x ∈ l := by
  intro l
  induction l with
  | nil => intro i acc x h; simp only [topUpAux] at h; exact Or.inl h
  | cons res rest ih =>
    intro i acc x h
    by_cases hmem : i ∈ already
    · simp only [topUpAux, hmem, if_pos] at h
      split at h
      · exact Or.inl h
      · rcases ih (i + 1) acc x h with h' | h'
        · exact Or.inl h'
        · exact Or.inr (List.mem_cons_of_mem res h')
    · simp only [topUpAux, hmem, if_neg, not_false_iff] at h
      split at h
      · rcases List.mem_append.mp h with h' | h'
        · exact Or.inl h'
        · simp only [List.mem_singleton] at h'
          exact Or.inr (h' ▸ List.mem_cons_self res rest)
      · rcases ih (i + 1) (acc ++ [res]) x h with h' | h'
        · rcases List.mem_append.mp h' with h'' | h''
          · exact Or.inl h''
          · simp only [List.mem_singleton] at h''
            exact Or.inr (h'' ▸ List.mem_cons_self res rest)
        · exact Or.inr (List.mem_cons_of_mem res h')

theorem mem_filterMap_get? (l : List α) (ixs : List Nat) (x : α)
    (h : x ∈ ixs.filterMap (fun k => l.get? k)) : x ∈ l := by
  simp only [List.mem_filterMap] at h
  obtain ⟨k, _, hk⟩ := h
  exact List.get?_mem hk

theorem filterMap_get?_nodup (l : List α) (hl : l.Nodup) (ixs : List Nat)
    (hix : ixs.Nodup) :
    (ixs.filterMap (fun k => l.get? k)).Nodup := by
  apply List.Nodup.filterMap ?_ hix
  intro a a' b hb hb'
  have hb1 : l.get? a = some b := hb
  have hb2 : l.get? a' = some b := hb'
  have ha : a < l.length := by
    obtain ⟨h, _⟩ := List.get?_eq_some.mp hb1
    exact h
  exact List.get?_inj ha hl (hb1.trans hb2.symm)

theorem topUpAux_nodup (results : List α) (hres : results.Nodup)
    (already : List Nat) :
    ∀ (l : List α) (i : Nat) (acc : List α) (ixs : List Nat),
      l = results.drop i →
      ixs.Nodup →
      (∀ j ∈ ixs, j ∈ already ∨ j < i) →
      acc = ixs.filterMap (fun k => results.get? k) →
      (topUpAux already i l acc).Nodup := by
  intro l
  induction l with
  | nil =>
    intro i acc ixs _ hnodup _ hacc
    have h0 : topUpAux already i ([] : List α) acc = acc := rfl
    rw [h0, hacc]
    exact filterMap_get?_nodup results hres ixs hnodup
  | cons res rest ih =>
    intro i acc ixs hdrop hnodup hrange hacc
    have hget : results.get? i = some res := by
      have h0 : (results.drop i).get? 0 = some res := by rw [← hdrop]; rfl
      rw [List.get?_drop] at h0
      simpa using h0
    have hrest : rest = results.drop (i + 1) := by
      have h1 : (results.drop i).tail = results.drop (i + 1) := List.tail_drop results i
      rw [← hdrop] at h1
      simpa using h1
    have haccnd : acc.Nodup := hacc ▸ filterMap_get?_nodup results hres ixs hnodup
    have hrange' : ∀ j ∈ ixs, j ∈ already ∨ j < i + 1 := by
      intro j hj
      rcases hrange j hj with h | h
      · exact Or.inl h
      · exact Or.inr (by omega)
    by_cases hmem : i ∈ already
    · simp only [topUpAux, hmem, if_pos]
      split
      · exact haccnd
      · exact ih (i + 1) acc ixs hrest hnodup hrange' hacc
    · have hi_notin : i ∉ ixs := by
        intro hin
        rcases hrange i hin with h | h
        · exact hmem h
        · omega
      have hnodup' : (ixs ++ [i]).Nodup := by
        simp [List.nodup_append, hnodup, hi_notin]
      have hrange'' : ∀ j ∈ ixs ++ [i], j ∈ already ∨ j < i + 1 := by
        intro j hj
        rcases List.mem_append.mp hj with h | h
        · exact hrange' j h
        · simp only [List.mem_singleton] at h
          exact Or.inr (by omega)
      have hacc' : acc ++ [res] = (ixs ++ [i]).filterMap (fun k => results.get? k) := by
        rw [List.filterMap_append, hacc]
        have hget' : results[i]? = some res := by
          rw [← List.get?_eq_getElem?]
          exact hget
        simp [hget']
      have haccnd' : (acc ++ [res]).Nodup :=
        hacc' ▸ filterMap_get?_nodup results hres (ixs ++ [i]) hnodup'
      simp only [topUpAux, hmem, if_neg, not_false_iff]
      split
      · exact haccnd'
      · exact ih (i + 1) (acc ++ [res]) (ixs ++ [i]) hrest hnodup' hrange'' hacc'

theorem rerank_parsed_eq (results : List α) (hres : results ≠ []) (ix : List JItem) :
    rerank true results (LLMOutcome.parsed ix) =
      (let valids := selectedValid results.length ix
       let final := valids.filterMap (fun k => results.get? k)
       if final.isEmpty then results.take 10
       else if final.length < 5 then topUpAux valids 0 results final
       else final) := by
  cases results with
  | nil => exact absurd rfl hres
  | cons a t => rfl

theorem take_ten_length_le (l : List α) : (l.take 10).length ≤ 10 := by
  rw [List.length_take]
  exact min_le_left _ _

theorem selectedValid_nil_of_length_zero (ix : List JItem) :
    selectedValid 0 ix = [] := by
  cases h : selectedValid 0 ix with
  | nil => rfl
  | cons a t =>
    have := selectedValid_lt 0 ix a (h ▸ List.mem_cons_self a t)
    omega

theorem final_ne_nil_results_ne_nil (results : List α) (ix : List JItem)
    (h : (selectedValid results.length ix).filterMap (fun k => results.get? k) ≠ []) :
    results ≠ [] := by
  intro hr
  subst hr
  have h0 : ([] : List α).length = 0 := rfl
  rw [h0, selectedValid_nil_of_length_zero] at h
  exact h rfl

/-- C1 counterexample: with candidates `[10, 20]` and the LLM response
`[0, 0]`, `rerank` returns `[10, 10, 20]` — the same candidate (index 0)
twice.  The selection loop appends `results[idx]` for every valid index
occurrence without consulting `already_added`, so the claim "rerank
deduplicates the selected indices keeping only the first occurrence ...
the returned list never contains the same candidate twice" is false. -/
theorem C1_counterexample :
    ¬ (rerank true ([10, 20] : List Nat)
        (LLMOutcome.parsed [JItem.int 0, JItem.int 0])).Nodup := by
  decide

/-- C1 (amended): `rerank` does not deduplicate the selected indices: each
valid index occurrence of the LLM response contributes one entry, in the
order the model returned them (not re-sorted), so duplicate indices yield
duplicate entries; the top-up phase only appends candidates whose index
was not selected, so when the valid indices are pairwise distinct and the
candidate entries are pairwise distinct the returned list contains no
candidate twice. -/
theorem C1_rerank_order_and_nodup (results : List α) (ix : List JItem) :
    (((selectedValid results.length ix).filterMap (fun k => results.get? k)) ≠ [] →
      ∃ extra, rerank true results (LLMOutcome.parsed ix) =
        ((selectedValid results.length ix).filterMap (fun k => results.get? k)) ++
          extra) ∧
    ((selectedValid results.length ix).Nodup → results.Nodup →
      (rerank true results (LLMOutcome.parsed ix)).Nodup) := by
  constructor
  · intro hne
    have hres : results ≠ [] := final_ne_nil_results_ne_nil results ix hne
    rw [rerank_parsed_eq results hres ix]
    simp only
    rw [if_neg (by simpa [List.isEmpty_iff] using hne)]
    split
    · exact topUpAux_append _ results 0 _
    · exact ⟨[], by simp⟩
  · intro hvn hrn
    by_cases hres : results = []
    · subst hres
      have h0 : rerank true ([] : List α) (LLMOutcome.parsed ix) = [] := rfl
      rw [h0]
      exact List.nodup_nil
    · rw [rerank_parsed_eq results hres ix]
      simp only
      split
      · exact hrn.sublist (List.take_sublist 10 results)
      · split
        · exact topUpAux_nodup results hrn _ results 0 _ _
            (by simp) hvn (fun j hj => Or.inl hj) rfl
        · exact filterMap_get?_nodup results hrn _ hvn

/-- C1 witness: at candidates `[5, 6, 7]` and response `[1]`, the selected
prefix is `[6]`, and the output is duplicate-free. -/
theorem C1_witness :
    (∃ extra, rerank true ([5, 6, 7] : List Nat) (LLMOutcome.parsed [JItem.int 1]) =
      [6] ++ extra) ∧
    (rerank true ([5, 6, 7] : List Nat) (LLMOutcome.parsed [JItem.int 1])).Nodup :=
  ⟨(C1_rerank_order_and_nodup [5, 6, 7] [JItem.int 1]).1 (by decide),
   (C1_rerank_order_and_nodup [5, 6, 7] [JItem.int 1]).2 (by decide) (by decide)⟩

/-- C2 counterexample: (a) with 11 candidates and an LLM response listing
all 11 indices, `rerank` returns 11 entries — more than `target_size` = 10,
because the selection loop never truncates; (b) with 20 candidates and a
response of 6 valid indices, `rerank` returns 6 entries — shorter than 10
although the candidate list has 20 elements. -/
theorem C2_counterexample :
    ¬ ((rerank true (List.range 11)
        (LLMOutcome.parsed ((List.range 11).map (fun i => JItem.int (i : Int))))).length
          ≤ 10) ∧
    ¬ (((rerank true (List.range 20)
        (LLMOutcome.parsed ((List.range 6).map (fun i => JItem.int (i : Int))))).length
          < 10) → (List.range 20).length < 10) := by
  constructor
  · decide
  · decide

/-- C2 (amended): the list returned by `rerank` has length at most
`max target_size v` where `v` is the number of valid index occurrences in
the LLM response (so at most `target_size` = 10 whenever the model returns
at most 10 valid indices); it can be shorter than `target_size` even when
the candidate list is longer (namely when the model selects 5 to 9
indices). -/
theorem C2_rerank_length_le (cfg : Bool) (results : List α) (outcome : LLMOutcome) :
    (rerank cfg results outcome).length ≤ max 10 (vCount results.length outcome) := by
  cases cfg with
  | false =>
    have h0 : rerank false results outcome = results.take 10 := rfl
    rw [h0]
    exact le_trans (take_ten_length_le results) (le_max_left _ _)
  | true =>
    by_cases hres : results = []
    · subst hres
      cases outcome <;>
        exact le_trans (take_ten_length_le _) (le_max_left _ _)
    · cases outcome with
      | failure =>
        have h0 : rerank true results LLMOutcome.failure = results.take 10 := by
          cases results with
          | nil => rfl
          | cons a t => rfl
        rw [h0]
        exact le_trans (take_ten_length_le results) (le_max_left _ _)
      | parsed ix =>
        rw [rerank_parsed_eq results hres ix]
        simp only
        split
        · exact le_trans (take_ten_length_le results) (le_max_left _ _)
        · split
          · next hlt =>
            exact le_trans
              (topUpAux_length_le _ results 0 _ (by omega)) (le_max_left _ _)
          · refine le_trans ?_ (le_max_right _ _)
            have h1 := List.length_filterMap_le (fun k => results.get? k)
              (selectedValid results.length ix)
            simpa [vCount] using h1

/-- C3 counterexample: with 20 candidates and an LLM response selecting the
single index 0, `rerank` returns 10 entries, not 5: the top-up loop only
stops at `len(final_results) >= 10`, so it fills up to `target_size`, not
to the minimum of 5 the claim describes. -/
theorem C3_counterexample :
    ¬ ((rerank true (List.range 20) (LLMOutcome.parsed [JItem.int 0])).length = 5) := by
  decide

/-- C3 (amended): when the LLM response yields between 1 and 4 valid index
occurrences, the top-up appends not-yet-selected candidates in their
original retrieval order, stopping only when the result size reaches
`target_size` = 10 (or the candidates are exhausted); in particular, when
the candidate list has at least 10 elements the returned list has exactly
10 elements, not 5. -/
theorem C3_rerank_topup_to_ten (results : List α) (ix : List JItem)
    (h1 : 1 ≤ vCount results.length (LLMOutcome.parsed ix))
    (h4 : vCount results.length (LLMOutcome.parsed ix) ≤ 4)
    (h10 : 10 ≤ results.length) :
    (rerank true results (LLMOutcome.parsed ix)).length = 10 := by
  have hres : results ≠ [] := by
    intro h
    rw [h] at h10
    simp at h10
  have hv : vCount results.length (LLMOutcome.parsed ix) =
      (selectedValid results.length ix).length := rfl
  have hflen : ((selectedValid results.length ix).filterMap
      (fun k => results.get? k)).length = (selectedValid results.length ix).length :=
    filterMap_get?_length results _ (selectedValid_lt _ _)
  rw [rerank_parsed_eq results hres ix]
  simp only
  rw [if_neg (by
    rw [List.isEmpty_iff]
    intro hnil
    rw [hnil] at hflen
    simp at hflen
    omega)]
  rw [if_pos (by omega)]
  apply topUpAux_length_eq
  · omega
  · have havail := numAvail_ge_sub (selectedValid results.length ix) results 0
    omega

/-- C3 witness: 10 candidates, a single valid selected index — the result
has exactly 10 elements. -/
theorem C3_witness :
    1 ≤ vCount (List.range 10).length (LLMOutcome.parsed [JItem.int 0]) ∧
    vCount (List.range 10).length (LLMOutcome.parsed [JItem.int 0]) ≤ 4 ∧
    10 ≤ (List.range 10).length ∧
    (rerank true (List.range 10) (LLMOutcome.parsed [JItem.int 0])).length = 10 :=
  ⟨by decide, by decide, by decide,
   C3_rerank_topup_to_ten (List.range 10) [JItem.int 0] (by decide) (by decide)
     (by decide)⟩

/-- C4 (confirmed): with at least 5 candidates and an LLM response yielding
between 1 and 4 valid index occurrences, the list returned by `rerank` has
at least `min 5 (length of candidates)` = 5 elements: the top-up loop
appends unselected candidates until the result reaches 10 or the
candidates run out, which never leaves fewer than
`min 10 (length of candidates)` ≥ 5 entries. -/
theorem C4_rerank_min_size (results : List α) (ix : List JItem)
    (h5 : 5 ≤ results.length)
    (h1 : 1 ≤ vCount results.length (LLMOutcome.parsed ix))
    (h4 : vCount results.length (LLMOutcome.parsed ix) ≤ 4) :
    min 5 results.length ≤ (rerank true results (LLMOutcome.parsed ix)).length := by
  have hres : results ≠ [] := by
    intro h
    rw [h] at h5
    simp at h5
  have hv : vCount results.length (LLMOutcome.parsed ix) =
      (selectedValid results.length ix).length := rfl
  have hflen : ((selectedValid results.length ix).filterMap
      (fun k => results.get? k)).length = (selectedValid results.length ix).length :=
    filterMap_get?_length results _ (selectedValid_lt _ _)
  rw [rerank_parsed_eq results hres ix]
  simp only
  rw [if_neg (by
    rw [List.isEmpty_iff]
    intro hnil
    rw [hnil] at hflen
    simp at hflen
    omega)]
  rw [if_pos (by omega)]
  have hge := topUpAux_length_ge (selectedValid results.length ix) results 0
    ((selectedValid results.length ix).filterMap (fun k => results.get? k))
  have havail := numAvail_ge_sub (selectedValid results.length ix) results 0
  omega

/-- C4 witness: 5 candidates, a single valid selected index — the result
has at least 5 elements. -/
theorem C4_witness :
    5 ≤ (List.range 5).length ∧
    1 ≤ vCount (List.range 5).length (LLMOutcome.parsed [JItem.int 0]) ∧
    vCount (List.range 5).length (LLMOutcome.parsed [JItem.int 0]) ≤ 4 ∧
    min 5 (List.range 5).length ≤
      (rerank true (List.range 5) (LLMOutcome.parsed [JItem.int 0])).length :=
  ⟨by decide, by decide, by decide,
   C4_rerank_min_size (List.range 5) [JItem.int 0] (by decide) (by decide) (by decide)⟩

/-- C5 (confirmed): whenever the LLM model is not configured, or the
candidate list is empty, or the request/parse failed (no parseable JSON
array), or zero valid indices remain after the `isinstance`/range filter,
`rerank` returns exactly the first `target_size` = 10 candidates
(`results[:10]`) unchanged.  The embedding is a total function and every
Python exception along these paths is caught by the `try/except` that
returns `results[:10]`, so nothing propagates to the caller. -/
theorem C5_rerank_fallback (cfg : Bool) (results : List α) (outcome : LLMOutcome)
    (h : cfg = false ∨ results = [] ∨ outcome = LLMOutcome.failure ∨
      vCount results.length outcome = 0) :
    rerank cfg results outcome = results.take 10 := by
  by_cases hcfg : cfg = false
  · subst hcfg
    rfl
  · have hcfg' : cfg = true := by
      cases cfg
      · exact absurd rfl hcfg
      · rfl
    subst hcfg'
    by_cases hres : results = []
    · subst hres
      cases outcome <;> rfl
    · rcases h with h | h | h | h
      · exact absurd h hcfg
      · exact absurd h hres
      · subst h
        cases results with
        | nil => rfl
        | cons a t => rfl
      · cases outcome with
        | failure =>
          cases results with
          | nil => rfl
          | cons a t => rfl
        | parsed ix =>
          have hv : (selectedValid results.length ix).length = 0 := h
          have hnil : selectedValid results.length ix = [] :=
            List.length_eq_zero.mp hv
          rw [rerank_parsed_eq results hres ix]
          simp only [hnil, List.filterMap_nil, List.isEmpty_nil, if_true]

/-- C5 witness: configured model, non-empty candidates, a parsed response
whose only element is not an integer — the identity fallback fires. -/
theorem C5_witness :
    vCount ([1, 2, 3] : List Nat).length (LLMOutcome.parsed [JItem.nonInt]) = 0 ∧
    rerank true ([1, 2, 3] : List Nat) (LLMOutcome.parsed [JItem.nonInt]) =
      ([1, 2, 3] : List Nat).take 10 :=
  ⟨by decide,
   C5_rerank_fallback true [1, 2, 3] (LLMOutcome.parsed [JItem.nonInt])
     (Or.inr (Or.inr (Or.inr (by decide))))⟩

/-- C9 (confirmed): every element of the list returned by `rerank` is an
element of the input candidate list, in the LLM-selection path (entries
come from `results[idx]`), the top-up path (entries come from
`enumerate(results)`), and every fallback path (`results[:10]`): the
reranker never fabricates or modifies entries. -/
theorem C9_rerank_subset (cfg : Bool) (results : List α) (outcome : LLMOutcome)
    (x : α) (hx : x ∈ rerank cfg results outcome) : x ∈ results := by
  by_cases hcfg : cfg = false
  · subst hcfg
    have h0 : rerank false results outcome = results.take 10 := rfl
    rw [h0] at hx
    exact List.take_subset 10 results hx
  · have hcfg' : cfg = true := by
      cases cfg
      · exact absurd rfl hcfg
      · rfl
    subst hcfg'
    by_cases hres : results = []
    · subst hres
      cases outcome with
      | failure =>
        have h0 : rerank true ([] : List α) LLMOutcome.failure = [] := rfl
        rw [h0] at hx
        exact absurd hx (List.not_mem_nil x)
      | parsed ix =>
        have h0 : rerank true ([] : List α) (LLMOutcome.parsed ix) = [] := rfl
        rw [h0] at hx
        exact absurd hx (List.not_mem_nil x)
    · cases outcome with
      | failure =>
        have h0 : rerank true results LLMOutcome.failure = results.take 10 := by
          cases results with
          | nil => rfl
          | cons a t => rfl
        rw [h0] at hx
        exact List.take_subset 10 results hx
      | parsed ix =>
        rw [rerank_parsed_eq results hres ix] at hx
        simp only at hx
        split at hx
        · exact List.take_subset 10 results hx
        · split at hx
          · rcases topUpAux_mem _ results 0 _ x hx with h | h
            · exact mem_filterMap_get? results _ x h
            · exact h
          · exact mem_filterMap_get? results _ x hx

/-- C9 witness: the fallback result at a singleton candidate list contains
only that candidate. -/
theorem C9_witness :
    (0 : Nat) ∈ rerank true [0] LLMOutcome.failure ∧ (0 : Nat) ∈ [0] :=
  ⟨by decide, C9_rerank_subset true [0] LLMOutcome.failure 0 (by decide)⟩

/-! ### Lemmas about the name normalizer -/

theorem keepChar_chars {c : Char} (h : keepChar c = true) :
    ('a' ≤ c ∧ c ≤ 'z') ∨ ('0' ≤ c ∧ c ≤ '9') ∨ c = '-' := by
  simp only [keepChar, Bool.or_eq_true, Bool.and_eq_true, decide_eq_true_eq,
    beq_iff_eq] at h
  tauto

theorem keepChar_ne {c : Char} (h : keepChar c = true) :
    c ≠ '?' ∧ c ≠ '#' ∧ c ≠ '%' ∧ c ≠ '/' ∧ c.isWhitespace = false := by
  refine ⟨?_, ?_, ?_, ?_, ?_⟩
  · intro hc; subst hc; exact absurd h (by decide)
  · intro hc; subst hc; exact absurd h (by decide)
  · intro hc; subst hc; exact absurd h (by decide)
  · intro hc; subst hc; exact absurd h (by decide)
  · cases hw : c.isWhitespace
    · rfl
    · exfalso
      simp only [Char.isWhitespace, Bool.or_eq_true, decide_eq_true_eq] at hw
      rcases hw with ((rfl | rfl) | rfl) | rfl <;> exact absurd h (by decide)

theorem pyLower_keep {c : Char} (h : keepChar c = true) : pyLower c = c := by
  unfold pyLower
  rw [if_neg]
  rintro ⟨h1, h2⟩
  rcases keepChar_chars h with ⟨h3, h4⟩ | ⟨h3, h4⟩ | h3
  · exact absurd (le_trans h3 h2) (by decide)
  · exact absurd (le_trans h1 h4) (by decide)
  · subst h3; exact absurd h1 (by decide)

theorem unquoteFuel_eq_self :
    ∀ (fuel : Nat) (l : List Char), (∀ c ∈ l, c ≠ '%') → unquoteFuel fuel l = l
  | 0, _, _ => rfl
  | _ + 1, [], _ => rfl
  | fuel + 1, c :: rest, h => by
    have hc : ¬ c = '%' := h c (List.mem_cons_self c rest)
    simp only [unquoteFuel, if_neg hc]
    exact congrArg (c :: ·)
      (unquoteFuel_eq_self fuel rest (fun x hx => h x (List.mem_cons_of_mem c hx)))

theorem unquoteChars_eq_self (l : List Char) (h : ∀ c ∈ l, c ≠ '%') :
    unquoteChars l = l :=
  unquoteFuel_eq_self l.length l h

theorem splitChar_no_sep (sep : Char) :
    ∀ l : List Char, (∀ c ∈ l, c ≠ sep) → splitChar sep l = [l]
  | [], _ => rfl
  | c :: rest, h => by
    have hr := splitChar_no_sep sep rest (fun x hx => h x (List.mem_cons_of_mem c hx))
    have hc : ¬ c = sep := h c (List.mem_cons_self c rest)
    simp only [splitChar, hr]
    rw [if_neg hc]

theorem takeWhile_eq_self_of_all (p : Char → Bool) :
    ∀ l : List Char, (∀ c ∈ l, p c = true) → l.takeWhile p = l
  | [], _ => rfl
  | c :: rest, h => by
    have hc := h c (List.mem_cons_self c rest)
    rw [List.takeWhile_cons, if_pos hc]
    exact congrArg (c :: ·)
      (takeWhile_eq_self_of_all p rest (fun x hx => h x (List.mem_cons_of_mem c hx)))

theorem dropWhile_head_not (p : Char → Bool) :
    ∀ (l : List Char) (c : Char), (l.dropWhile p).head? = some c → p c = false
  | [], c, h => by simp at h
  | a :: rest, c, h => by
    by_cases ha : p a = true
    · rw [List.dropWhile_cons, if_pos ha] at h
      exact dropWhile_head_not p rest c h
    · rw [List.dropWhile_cons, if_neg ha] at h
      simp only [List.head?_cons, Option.some.injEq] at h
      subst h
      cases hpa : p a
      · rfl
      · exact absurd hpa ha

theorem dropWhile_eq_self_of_head (p : Char → Bool) (l : List Char)
    (h : ∀ c, l.head? = some c → p c = false) : l.dropWhile p = l := by
  cases l with
  | nil => rfl
  | cons a rest =>
    have ha := h a rfl
    rw [List.dropWhile_cons, if_neg (by simp [ha])]

theorem stripWhile_front (p : Char → Bool) (l : List Char) :
    stripWhile p l <+: l.dropWhile p := by
  unfold stripWhile
  obtain ⟨t, ht⟩ := List.dropWhile_suffix (l := (l.dropWhile p).reverse) p
  refine ⟨t.reverse, ?_⟩
  have := congrArg List.reverse ht
  simpa using this

theorem stripWhile_subset (p : Char → Bool) (l : List Char) : stripWhile p l ⊆ l :=
  fun _ hx => (List.dropWhile_suffix p).subset ((stripWhile_front p l).subset hx)

theorem head?_of_pre (l1 l2 : List Char) (h : l1 <+: l2) (c : Char)
    (hc : l1.head? = some c) : l2.head? = some c := by
  obtain ⟨t, rfl⟩ := h
  cases l1 with
  | nil => simp at hc
  | cons a r => simpa using hc

theorem stripWhile_head (p : Char → Bool) (l : List Char) (c : Char)
    (h : (stripWhile p l).head? = some c) : p c = false :=
  dropWhile_head_not p l c (head?_of_pre _ _ (stripWhile_front p l) c h)

theorem stripWhile_last (p : Char → Bool) (l : List Char) (c : Char)
    (h : (stripWhile p l).getLast? = some c) : p c = false := by
  unfold stripWhile at h
  rw [List.getLast?_reverse] at h
  exact dropWhile_head_not p (l.dropWhile p).reverse c h

theorem stripWhile_chain' (p : Char → Bool) (R : Char → Char → Prop) (l : List Char)
    (h : List.Chain' R l) : List.Chain' R (stripWhile p l) := by
  obtain ⟨t1, ht1⟩ := List.dropWhile_suffix (l := l) p
  obtain ⟨t2, ht2⟩ := stripWhile_front p l
  have hd : List.Chain' R (l.dropWhile p) := by
    rw [← ht1] at h
    exact (List.chain'_append.mp h).2.1
  rw [← ht2] at hd
  exact (List.chain'_append.mp hd).1

theorem stripWhile_eq_self (p : Char → Bool) (l : List Char)
    (hh : ∀ c, l.head? = some c → p c = false)
    (hl : ∀ c, l.getLast? = some c → p c = false) :
    stripWhile p l = l := by
  unfold stripWhile
  rw [dropWhile_eq_self_of_head p l hh,
    dropWhile_eq_self_of_head p l.reverse
      (fun c hc => hl c (by rwa [List.head?_reverse] at hc)),
    List.reverse_reverse]

theorem stripWhile_eq_self_of_all (p : Char → Bool) (l : List Char)
    (h : ∀ c ∈ l, p c = false) : stripWhile p l = l := by
  apply stripWhile_eq_self p l
  · intro c hc
    exact h c (List.mem_of_mem_head? (Option.mem_def.mpr hc))
  · intro c hc
    have h1 : l.reverse.head? = some c := by rw [List.head?_reverse]; exact hc
    have h2 : c ∈ l.reverse := List.mem_of_mem_head? (Option.mem_def.mpr h1)
    exact h c (List.mem_reverse.mp h2)

theorem map_eq_self_of_all (f : Char → Char) :
    ∀ l : List Char, (∀ c ∈ l, f c = c) → l.map f = l
  | [], _ => rfl
  | c :: rest, h => by
    rw [List.map_cons, h c (List.mem_cons_self c rest)]
    exact congrArg (c :: ·)
      (map_eq_self_of_all f rest (fun x hx => h x (List.mem_cons_of_mem c hx)))

theorem collapseHyphens_subset : ∀ l : List Char, collapseHyphens l ⊆ l
  | [] => by simp [collapseHyphens]
  | [c] => by simp [collapseHyphens]
  | a :: b :: rest => by
    simp only [collapseHyphens]
    split
    · exact fun x hx =>
        List.mem_cons_of_mem a (collapseHyphens_subset (b :: rest) hx)
    · intro x hx
      rcases List.mem_cons.mp hx with rfl | hx'
      · exact List.mem_cons_self x (b :: rest)
      · exact List.mem_cons_of_mem a (collapseHyphens_subset (b :: rest) hx')

theorem collapseHyphens_head? : ∀ l : List Char, (collapseHyphens l).head? = l.head?
  | [] => rfl
  | [_] => rfl
  | a :: b :: rest => by
    simp only [collapseHyphens]
    split
    · next hab =>
      rw [collapseHyphens_head? (b :: rest)]
      simp [hab.1, hab.2]
    · rfl

theorem collapseHyphens_chain' : ∀ l : List Char,
    List.Chain' (fun a b => ¬(a = '-' ∧ b = '-')) (collapseHyphens l)
  | [] => List.chain'_nil
  | [c] => List.chain'_singleton c
  | a :: b :: rest => by
    simp only [collapseHyphens]
    split
    · exact collapseHyphens_chain' (b :: rest)
    · next hab =>
      rw [List.chain'_cons']
      refine ⟨?_, collapseHyphens_chain' (b :: rest)⟩
      intro y hy
      rw [collapseHyphens_head? (b :: rest)] at hy
      simp only [List.head?_cons, Option.mem_def, Option.some.injEq] at hy
      subst hy
      exact fun hc => hab hc

theorem collapseHyphens_eq_self : ∀ l : List Char,
    List.Chain' (fun a b => ¬(a = '-' ∧ b = '-')) l → collapseHyphens l = l
  | [], _ => rfl
  | [_], _ => rfl
  | a :: b :: rest, h => by
    rw [List.chain'_cons] at h
    simp only [collapseHyphens, if_neg h.1]
    exact congrArg (a :: ·) (collapseHyphens_eq_self (b :: rest) h.2)

theorem dropWhile_eq_self_of_all (p : Char → Bool) (l : List Char)
    (h : ∀ c ∈ l, p c = false) : l.dropWhile p = l :=
  dropWhile_eq_self_of_head p l
    (fun c hc => h c (List.mem_of_mem_head? (Option.mem_def.mpr hc)))

theorem slugify_ok (name0 : List Char) :
    (∀ c ∈ slugify name0, keepChar c = true) ∧
    (∀ c, (slugify name0).head? = some c → c ≠ '-') ∧
    (∀ c, (slugify name0).getLast? = some c → c ≠ '-') ∧
    List.Chain' (fun a b => ¬(a = '-' ∧ b = '-')) (slugify name0) := by
  unfold slugify
  refine ⟨?_, ?_, ?_, ?_⟩
  · intro c hc
    have h1 : c ∈ collapseHyphens ((name0.map pyLower).filter keepChar) :=
      stripWhile_subset _ _ hc
    have h2 : c ∈ (name0.map pyLower).filter keepChar := collapseHyphens_subset _ h1
    exact (List.mem_filter.mp h2).2
  · intro c hc hEq
    have h1 := stripWhile_head _ _ c hc
    rw [hEq] at h1
    simp at h1
  · intro c hc hEq
    have h1 := stripWhile_last _ _ c hc
    rw [hEq] at h1
    simp at h1
  · exact stripWhile_chain' _ _ _
      (collapseHyphens_chain' ((name0.map pyLower).filter keepChar))

/-- `extractName` either returns `[]` (one of the two early returns) or the
`slugify` of some intermediate name. -/
theorem extractName_cases (url : List Char) :
    extractName url = [] ∨ ∃ name0, extractName url = slugify name0 := by
  unfold extractName
  by_cases h1 : (stripWhile Char.isWhitespace url).isEmpty = true
  · left
    rw [if_pos h1]
  · by_cases h2 : (cleanPath (stripWhile Char.isWhitespace url)).isEmpty = true
    · left
      rw [if_neg h1, if_pos h2]
    · right
      exact ⟨nameFromParts ((splitChar '/'
          (cleanPath (stripWhile Char.isWhitespace url))).filter (fun p => !p.isEmpty)),
        by rw [if_neg h1, if_neg h2]⟩

/-- The output of `extract_assessment_name` is a well-formed slug: only
characters from `[a-z0-9-]`, no leading or trailing hyphen, no two
consecutive hyphens. -/
theorem extractName_ok (url : List Char) :
    (∀ c ∈ extractName url, keepChar c = true) ∧
    (∀ c, (extractName url).head? = some c → c ≠ '-') ∧
    (∀ c, (extractName url).getLast? = some c → c ≠ '-') ∧
    List.Chain' (fun a b => ¬(a = '-' ∧ b = '-')) (extractName url) := by
  rcases extractName_cases url with h | ⟨name0, h⟩
  · rw [h]
    exact ⟨by simp, by simp, by simp, List.chain'_nil⟩
  · rw [h]
    exact slugify_ok name0

/-- A well-formed slug is a fixed point of `extract_assessment_name`. -/
theorem extractName_eq_self (l : List Char)
    (hkeep : ∀ c ∈ l, keepChar c = true)
    (hhead : ∀ c, l.head? = some c → c ≠ '-')
    (hlast : ∀ c, l.getLast? = some c → c ≠ '-')
    (hchain : List.Chain' (fun a b => ¬(a = '-' ∧ b = '-')) l) :
    extractName l = l := by
  by_cases hnil : l = []
  · subst hnil
    rfl
  · have hempty : l.isEmpty = false := by
      cases l
      · exact absurd rfl hnil
      · rfl
    have hstrip : stripWhile Char.isWhitespace l = l :=
      stripWhile_eq_self_of_all _ l (fun c hc => (keepChar_ne (hkeep c hc)).2.2.2.2)
    have hq : l.takeWhile (fun c => !(c == '?')) = l :=
      takeWhile_eq_self_of_all _ l (fun c hc => by
        have h1 := (keepChar_ne (hkeep c hc)).1
        simp [h1])
    have hh : l.takeWhile (fun c => !(c == '#')) = l :=
      takeWhile_eq_self_of_all _ l (fun c hc => by
        have h1 := (keepChar_ne (hkeep c hc)).2.1
        simp [h1])
    have hu : unquoteChars l = l :=
      unquoteChars_eq_self l (fun c hc => (keepChar_ne (hkeep c hc)).2.2.1)
    have hslash : ∀ c ∈ l, (c == '/') = false := fun c hc => by
      have h1 := (keepChar_ne (hkeep c hc)).2.2.2.1
      simp [h1]
    have h4 : (l.reverse.dropWhile (fun c => c == '/')).reverse = l := by
      rw [dropWhile_eq_self_of_all _ l.reverse
        (fun c hc => hslash c (List.mem_reverse.mp hc)), List.reverse_reverse]
    have h5 : l.dropWhile (fun c => c == '/') = l :=
      dropWhile_eq_self_of_all _ l hslash
    have hclean : cleanPath l = l := by
      unfold cleanPath
      rw [hq, hh, hu, dropWhile_eq_self_of_all _ l.reverse
        (fun c hc => hslash c (List.mem_reverse.mp hc)), List.reverse_reverse, h5]
    have hsplit : splitChar '/' l = [l] :=
      splitChar_no_sep '/' l (fun c hc => (keepChar_ne (hkeep c hc)).2.2.2.1)
    have hmap : l.map pyLower = l :=
      map_eq_self_of_all pyLower l (fun c hc => pyLower_keep (hkeep c hc))
    have hfilter : l.filter keepChar = l := List.filter_eq_self.mpr hkeep
    have hcoll : collapseHyphens l = l := collapseHyphens_eq_self l hchain
    have hstrip2 : stripWhile (fun c => c == '-') l = l :=
      stripWhile_eq_self _ l
        (fun c hc => by simp [hhead c hc])
        (fun c hc => by simp [hlast c hc])
    have hfl : List.filter (fun p => !p.isEmpty) [l] = [l] := by
      simp [hempty]
    have hnp : nameFromParts [l] = l := by
      simp [nameFromParts]
    unfold extractName
    rw [hstrip, if_neg (by simp [hempty]), hclean, if_neg (by simp [hempty]),
      hsplit, hfl, hnp]
    unfold slugify
    rw [hmap, hfilter, hcoll, hstrip2]

/-- C8 (confirmed): the name normalizer is idempotent —
`normalize(normalize(x)) == normalize(x)` for every string `x` — and
`normalize("") == ""`. -/
theorem C8_normalize_idempotent (x : String) :
    extract_assessment_name (extract_assessment_name x) = extract_assessment_name x ∧
    extract_assessment_name "" = "" := by
  constructor
  · obtain ⟨h1, h2, h3, h4⟩ := extractName_ok x.data
    show (⟨extractName (extractName x.data)⟩ : String) = ⟨extractName x.data⟩
    congr 1
    exact extractName_eq_self (extractName x.data) h1 h2 h3 h4
  · rfl

/-- C10 (confirmed): for every input, the output of the name normalizer
contains only lowercase ASCII letters, digits and hyphens, never starts or
ends with a hyphen, and never has two consecutive hyphens. -/
theorem C10_normalize_charset (x : String) :
    (∀ c ∈ (extract_assessment_name x).data,
      ('a' ≤ c ∧ c ≤ 'z') ∨ ('0' ≤ c ∧ c ≤ '9') ∨ c = '-') ∧
    (∀ c, (extract_assessment_name x).data.head? = some c → c ≠ '-') ∧
    (∀ c, (extract_assessment_name x).data.getLast? = some c → c ≠ '-') ∧
    List.Chain' (fun a b => ¬(a = '-' ∧ b = '-'))
      (extract_assessment_name x).data := by
  obtain ⟨h1, h2, h3, h4⟩ := extractName_ok x.data
  exact ⟨fun c hc => keepChar_chars (h1 c hc), h2, h3, h4⟩

/-! ### Lemmas about the evaluation harness -/

theorem stepRow_eq (acc : Nat × Nat) (row : EvalRow) :
    stepRow acc row =
      (acc.1 + (if rowHit row then 1 else 0),
       acc.2 + (if scoreable row then 1 else 0)) := by
  by_cases h1 : row.query = "" ∨ targetOf row = ""
  · have hs : scoreable row = false := by
      unfold scoreable
      rcases h1 with h | h <;> simp [h]
    have hh : rowHit row = false := by
      unfold rowHit
      rw [hs]
      simp
    rw [hs, hh]
    unfold stepRow
    rw [if_pos h1]
    simp
  · have h1' := h1
    push_neg at h1'
    obtain ⟨hq, ht⟩ := h1'
    unfold stepRow
    rw [if_neg h1]
    cases hapi : row.api with
    | requestError =>
      have hs : scoreable row = false := by
        unfold scoreable
        rw [hapi]
        simp
      have hh : rowHit row = false := by
        unfold rowHit
        rw [hs]
        simp
      rw [hs, hh]
      simp
    | response status body =>
      by_cases hst : status = 200
      · subst hst
        cases body with
        | invalid =>
          have hs : scoreable row = false := by
            unfold scoreable
            rw [hapi]
            simp
          have hh : rowHit row = false := by
            unfold rowHit
            rw [hs]
            simp
          rw [hs, hh]
          simp
        | valid recs =>
          have hs : scoreable row = true := by
            unfold scoreable
            rw [hapi]
            simp [hq, ht]
          have hh : rowHit row = foundTarget (targetOf row) recs := by
            unfold rowHit
            rw [hs, hapi]
            simp
          rw [hs, hh]
          cases hf : foundTarget (targetOf row) recs <;> simp [hf]
      · have hs : scoreable row = false := by
          unfold scoreable
          rw [hapi]
          cases body with
          | invalid => simp
          | valid recs => simp [hst]
        have hh : rowHit row = false := by
          unfold rowHit
          rw [hs]
          simp
        rw [hs, hh]
        simp [hst]

theorem foldl_stepRow : ∀ (rows : List EvalRow) (a b : Nat),
    rows.foldl stepRow (a, b) =
      (a + (rows.filter rowHit).length, b + (rows.filter scoreable).length)
  | [], a, b => by simp
  | r :: t, a, b => by
    rw [List.foldl_cons, stepRow_eq (a, b) r]
    rw [foldl_stepRow t (a + (if rowHit r then 1 else 0))
      (b + (if scoreable r then 1 else 0))]
    rw [List.filter_cons, List.filter_cons]
    cases hh : rowHit r <;> cases hs : scoreable r <;>
      simp [Prod.mk.injEq] <;> omega

/-- C7 (confirmed): records with an empty query, an expected URL whose
slug normalizes to empty, or a failed pipeline call (request exception,
non-200 status, unparseable JSON) are skipped and excluded from the
`processed` denominator; `calculate_metrics` reports
`recall = hits / processed` exactly when `processed > 0`, and the explicit
no-data report when `processed = 0` (no division by zero). -/
theorem C7_metrics_report (rows : List EvalRow) :
    calculate_metrics rows =
      (if (rows.filter scoreable).length = 0 then Report.noData
       else
         Report.recall
           (((rows.filter rowHit).length : ℚ) / ((rows.filter scoreable).length : ℚ))
           ((rows.filter scoreable).length)) := by
  unfold calculate_metrics
  rw [foldl_stepRow rows 0 0]
  simp only [Nat.zero_add]
  by_cases h : (rows.filter scoreable).length = 0
  · rw [if_neg (by omega), if_pos h]
  · rw [if_pos (by omega), if_neg h]

/-- C6 counterexample: the claim's rule ("E ends with R" with R = "")
counts a candidate whose URL normalizes to the empty slug as a hit for
any expected slug, but the code's `res_name and (...)` guard rejects
empty `res_name`, so the claimed "if and only if" fails at E = "java",
slugs = [""]. -/
theorem C6_counterexample :
    ¬ (codeRelaxedHit "java" [""] ↔ specRelaxedHit "java" [""]) := by
  decide

/-- C6 (amended): with non-empty expected slug E, a record counts as a hit
iff some *non-empty* returned slug R satisfies one of: R equals E, R ends
with E, E ends with R, E contains R, or R contains E; in particular
"java-developer" vs "java-developer-test" is a hit, and "java" vs
"javascript" is a hit. -/
theorem C6_relaxed_match (E : String) (slugs : List String) (hE : E ≠ "") :
    (codeRelaxedHit E slugs ↔
      ∃ R ∈ slugs, R ≠ "" ∧ (R = E ∨ E.data <:+ R.data ∨ R.data <:+ E.data ∨
        R.data <:+: E.data ∨ E.data <:+: R.data)) ∧
    codeRelaxedHit "java-developer" ["java-developer-test"] ∧
    codeRelaxedHit "java" ["javascript"] := by
  refine ⟨?_, by decide, by decide⟩
  unfold codeRelaxedHit matchNames
  constructor
  · rintro ⟨R, hR, hne, hcase⟩
    exact ⟨R, hR, hne, by tauto⟩
  · rintro ⟨R, hR, hne, hcase⟩
    exact ⟨R, hR, hne, by tauto⟩

/-- C6 witness: the amended rule evaluated at E = "java",
slugs = ["java"]. -/
theorem C6_witness :
    ("java" : String) ≠ "" ∧
    ((codeRelaxedHit "java" ["java"] ↔
      ∃ R ∈ (["java"] : List String), R ≠ "" ∧
        (R = "java" ∨ ("java" : String).data <:+ R.data ∨
          R.data <:+ ("java" : String).data ∨
          R.data <:+: ("java" : String).data ∨
          ("java" : String).data <:+: R.data)) ∧
      codeRelaxedHit "java-developer" ["java-developer-test"] ∧
      codeRelaxedHit "java" ["javascript"]) :=
  ⟨by decide, C6_relaxed_match "java" ["java"] (by decide)⟩

end SHL
